import Mathlib

/-!
Verification development for the instance-registry and port-allocation
subsystem of the wpod repository (`cmd/wp-manager/json_helpers.go`).
Go strings are modelled as `List Char`; the on-disk state is modelled as an
association list from path to file content; `encoding/json` serialization of
the two record types is modelled character by character in the layout
produced by `json.MarshalIndent(v, "", "  ")`.
-/

namespace Wpod

/-- JSON whitespace, as accepted by Go's `encoding/json` scanner. -/
def isWsChar (c : Char) : Bool :=
  c = ' ' || c = '\t' || c = '\n' || c = '\r'

/-- Drop leading JSON whitespace. -/
def skipWs : List Char → List Char
  | [] => []
  | c :: cs => if isWsChar c then skipWs cs else c :: cs

/-- Lower-case hex digit, as emitted by Go's json string escaper. -/
def hexDigitChar (n : Nat) : Char :=
  if n < 10 then Char.ofNat (48 + n) else Char.ofNat (87 + n)

/-- Decimal digit character. -/
def digitChar (n : Nat) : Char :=
  Char.ofNat (48 + n)

/-- One character escaped exactly as Go's `encoding/json` string encoder does
it (HTML escaping enabled, which is the default used by `json.MarshalIndent`):
quote, backslash, newline, carriage return and tab get two-character escapes,
other control characters and the HTML characters get `\u00xx`, and the two
line-separator code points get `\u202x`. -/
def escapeChar (c : Char) : List Char :=
  if c = '"' then ['\\', '"']
  else if c = '\\' then ['\\', '\\']
  else if c = '\n' then ['\\', 'n']
  else if c = '\r' then ['\\', 'r']
  else if c = '\t' then ['\\', 't']
  else if c.toNat < 32 ∨ c = '<' ∨ c = '>' ∨ c = '&' then
    ['\\', 'u', '0', '0', hexDigitChar (c.toNat / 16), hexDigitChar (c.toNat % 16)]
  else if c.toNat = 8232 ∨ c.toNat = 8233 then
    ['\\', 'u', '2', '0', '2', hexDigitChar (c.toNat % 16)]
  else [c]

/-- Escape a whole string body. -/
def escapeChars : List Char → List Char
  | [] => []
  | c :: cs => escapeChar c ++ escapeChars cs

/-- A JSON string literal: quote, escaped body, quote. -/
def quoteString (s : List Char) : List Char :=
  '"' :: (escapeChars s ++ ['"'])

/-- Decimal digits of a natural number, most significant first; the first
argument is fuel (any value above the argument itself is enough). -/
def natCharsAux : Nat → Nat → List Char
  | 0, _ => []
  | f + 1, n => if n < 10 then [digitChar n] else natCharsAux f (n / 10) ++ [digitChar (n % 10)]

/-- Decimal rendering of a natural number. -/
def natToChars (n : Nat) : List Char := natCharsAux (n + 1) n

/-- Decimal rendering of an integer, as Go prints an `int` in JSON. -/
def intToChars (n : Int) : List Char :=
  if n < 0 then '-' :: natToChars (-n).toNat else natToChars n.toNat

/-- Value of a hex digit character. -/
def hexVal (c : Char) : Option Nat :=
  if '0' ≤ c ∧ c ≤ '9' then some (c.toNat - 48)
  else if 'a' ≤ c ∧ c ≤ 'f' then some (c.toNat - 87)
  else if 'A' ≤ c ∧ c ≤ 'F' then some (c.toNat - 55)
  else none

/-- Character denoted by a `\uXXXX` escape; surrogate halves decode to the
replacement character, as in Go's decoder. -/
def uCharOf (n : Nat) : Char :=
  if 55296 ≤ n ∧ n < 57344 then Char.ofNat 65533 else Char.ofNat n

/-- The single-character JSON escapes accepted by the decoder. -/
def unescapeShort (c : Char) : Option Char :=
  if c = '"' then some '"'
  else if c = '\\' then some '\\'
  else if c = '/' then some '/'
  else if c = 'b' then some (Char.ofNat 8)
  else if c = 'f' then some (Char.ofNat 12)
  else if c = 'n' then some '\n'
  else if c = 'r' then some '\r'
  else if c = 't' then some '\t'
  else none

/-- Scan a JSON string body up to its closing quote, resolving escapes.
Returns the decoded body and the input after the closing quote. The first
argument is fuel; `length + 1` of the input always suffices. -/
def parseStringBody : Nat → List Char → Option (List Char × List Char)
  | 0, _ => none
  | _, [] => none
  | f + 1, c :: cs =>
    if c = '"' then some ([], cs)
    else if c = '\\' then
      match cs with
      | [] => none
      | e :: cs2 =>
        if e = 'u' then
          match cs2 with
          | h1 :: h2 :: h3 :: h4 :: rest =>
            match hexVal h1, hexVal h2, hexVal h3, hexVal h4 with
            | some a, some b, some d, some e2 =>
              match parseStringBody f rest with
              | some (out, rem) => some (uCharOf (4096 * a + 256 * b + 16 * d + e2) :: out, rem)
              | none => none
            | _, _, _, _ => none
          | _ => none
        else
          match unescapeShort e with
          | some d =>
            match parseStringBody f cs2 with
            | some (out, rem) => some (d :: out, rem)
            | none => none
          | none => none
    else
      match parseStringBody f cs with
      | some (out, rem) => some (c :: out, rem)
      | none => none

/-- Parse a JSON string literal after skipping leading whitespace. -/
def parseJString (s : List Char) : Option (List Char × List Char) :=
  match skipWs s with
  | [] => none
  | c :: r => if c = '"' then parseStringBody (r.length + 1) r else none

/-- Skip whitespace, then require and consume the character `c`. -/
def expectChar (c : Char) (s : List Char) : Option (List Char) :=
  match skipWs s with
  | d :: r => if d = c then some r else none
  | [] => none

/-- Split off the maximal leading run of decimal digits. -/
def takeDigits : List Char → List Char × List Char
  | [] => ([], [])
  | c :: cs =>
    if c.isDigit then
      let p := takeDigits cs
      (c :: p.1, p.2)
    else ([], c :: cs)

/-- Value of a digit string, most significant digit first. -/
def digitsToNat (l : List Char) : Nat :=
  l.foldl (fun acc c => 10 * acc + (c.toNat - 48)) 0

/-- Parse a JSON integer (optional minus sign, then digits). -/
def parseJInt (s : List Char) : Option (Int × List Char) :=
  match skipWs s with
  | [] => none
  | c :: r =>
    if c = '-' then
      let p := takeDigits r
      if p.1 = [] then none else some (-(digitsToNat p.1 : Int), p.2)
    else
      let p := takeDigits (c :: r)
      if p.1 = [] then none else some ((digitsToNat p.1 : Int), p.2)

/-- The `InstanceMeta` record of `json_helpers.go`: one managed instance. -/
structure InstanceMeta where
  directory : List Char
  creationDate : List Char
  wordpressVersion : List Char
  dbVersion : List Char
  wordpressPort : Int
  status : List Char
deriving DecidableEq, Inhabited

/-- `ManagerMeta`: the central mapping from instance name to record, modelled
as an association list (Go map iteration order is immaterial to the claims). -/
abbrev ManagerMeta := List (List Char × InstanceMeta)

/-- The `GlobalManagerConfig` record of `json_helpers.go`. -/
structure GlobalManagerConfig where
  sitesBaseDirectory : List Char
  theme : List Char
deriving DecidableEq, Inhabited

/-- Zero value of `GlobalManagerConfig`. -/
def defaultGlobalConfig : GlobalManagerConfig := ⟨[], []⟩

def keyDirectory : List Char := "directory".toList
def keyCreationDate : List Char := "creation_date".toList
def keyWordpressVersion : List Char := "wordpress_version".toList
def keyDbVersion : List Char := "db_version".toList
def keyWordpressPort : List Char := "wordpress_port".toList
def keyStatus : List Char := "status".toList
def keySitesBase : List Char := "sites_base_directory".toList
def keyTheme : List Char := "theme".toList

/-- One `"key": value` line at the given indentation. -/
def fieldLine (ind key val : List Char) : List Char :=
  ind ++ quoteString key ++ ':' :: ' ' :: val

/-- `json.MarshalIndent` rendering of one `InstanceMeta`, whose opening line
sits at indentation `ind` (fields one level deeper, struct order as in Go). -/
def encodeInstanceMeta (ind : List Char) (r : InstanceMeta) : List Char :=
  let ind2 := ind ++ [' ', ' ']
  '\x7b' :: '\n' ::
    (fieldLine ind2 keyDirectory (quoteString r.directory) ++ ',' :: '\n' ::
     (fieldLine ind2 keyCreationDate (quoteString r.creationDate) ++ ',' :: '\n' ::
      (fieldLine ind2 keyWordpressVersion (quoteString r.wordpressVersion) ++ ',' :: '\n' ::
       (fieldLine ind2 keyDbVersion (quoteString r.dbVersion) ++ ',' :: '\n' ::
        (fieldLine ind2 keyWordpressPort (intToChars r.wordpressPort) ++ ',' :: '\n' ::
         (fieldLine ind2 keyStatus (quoteString r.status) ++ '\n' :: (ind ++ ['\x7d'])))))))

/-- One top-level entry `"name": record`. -/
def encodeEntry (ind : List Char) (e : List Char × InstanceMeta) : List Char :=
  ind ++ quoteString e.1 ++ ':' :: ' ' :: encodeInstanceMeta ind e.2

/-- Comma-separated entry list. -/
def encodeEntries (ind : List Char) : ManagerMeta → List Char
  | [] => []
  | [e] => encodeEntry ind e
  | e :: es => encodeEntry ind e ++ ',' :: '\n' :: encodeEntries ind es

/-- `json.MarshalIndent(meta, "", "  ")` for the whole registry mapping. -/
def encodeManagerMeta : ManagerMeta → List Char
  | [] => ['\x7b', '\x7d']
  | es => '\x7b' :: '\n' :: (encodeEntries [' ', ' '] es ++ '\n' :: ['\x7d'])

/-- `json.MarshalIndent(config, "", "  ")` for the global config; both fields
carry `omitempty`, so empty fields are dropped. -/
def encodeGlobalConfig (c : GlobalManagerConfig) : List Char :=
  if c.sitesBaseDirectory = [] ∧ c.theme = [] then ['\x7b', '\x7d']
  else if c.theme = [] then
    '\x7b' :: '\n' ::
      (fieldLine [' ', ' '] keySitesBase (quoteString c.sitesBaseDirectory) ++ '\n' :: ['\x7d'])
  else if c.sitesBaseDirectory = [] then
    '\x7b' :: '\n' :: (fieldLine [' ', ' '] keyTheme (quoteString c.theme) ++ '\n' :: ['\x7d'])
  else
    '\x7b' :: '\n' ::
      (fieldLine [' ', ' '] keySitesBase (quoteString c.sitesBaseDirectory) ++ ',' :: '\n' ::
       (fieldLine [' ', ' '] keyTheme (quoteString c.theme) ++ '\n' :: ['\x7d']))

/-- Parse `"key": "value"` where the key must equal `key`. -/
def parseFieldStr (key : List Char) (s : List Char) : Option (List Char × List Char) :=
  match parseJString s with
  | none => none
  | some (k, r1) =>
    if k = key then
      match expectChar ':' r1 with
      | none => none
      | some r2 => parseJString r2
    else none

/-- Parse `"key": int` where the key must equal `key`. -/
def parseFieldInt (key : List Char) (s : List Char) : Option (Int × List Char) :=
  match parseJString s with
  | none => none
  | some (k, r1) =>
    if k = key then
      match expectChar ':' r1 with
      | none => none
      | some r2 => parseJInt r2
    else none

/-- Parse one serialized `InstanceMeta` object (the canonical field order
emitted by the Go struct; models `json.Unmarshal` on the layout that
`writeManagerMeta` produces). -/
def parseInstanceMeta (s : List Char) : Option (InstanceMeta × List Char) :=
  match expectChar '\x7b' s with
  | none => none
  | some r0 =>
  match parseFieldStr keyDirectory r0 with
  | none => none
  | some (dv, r1) =>
  match expectChar ',' r1 with
  | none => none
  | some r2 =>
  match parseFieldStr keyCreationDate r2 with
  | none => none
  | some (cv, r3) =>
  match expectChar ',' r3 with
  | none => none
  | some r4 =>
  match parseFieldStr keyWordpressVersion r4 with
  | none => none
  | some (wv, r5) =>
  match expectChar ',' r5 with
  | none => none
  | some r6 =>
  match parseFieldStr keyDbVersion r6 with
  | none => none
  | some (bv, r7) =>
  match expectChar ',' r7 with
  | none => none
  | some r8 =>
  match parseFieldInt keyWordpressPort r8 with
  | none => none
  | some (pv, r9) =>
  match expectChar ',' r9 with
  | none => none
  | some r10 =>
  match parseFieldStr keyStatus r10 with
  | none => none
  | some (sv, r11) =>
  match expectChar '\x7d' r11 with
  | none => none
  | some r12 => some (⟨dv, cv, wv, bv, pv, sv⟩, r12)

/-- Parse a nonempty comma-separated list of `"name": record` entries up to
the closing brace of the top-level object. Fuel bounds the entry count. -/
def parseEntries : Nat → List Char → Option (ManagerMeta × List Char)
  | 0, _ => none
  | f + 1, s =>
    match parseJString s with
    | none => none
    | some (k, r1) =>
    match expectChar ':' r1 with
    | none => none
    | some r2 =>
    match parseInstanceMeta r2 with
    | none => none
    | some (v, r3) =>
      match skipWs r3 with
      | [] => none
      | c :: r4 =>
        if c = ',' then
          match parseEntries f r4 with
          | some (es, r5) => some ((k, v) :: es, r5)
          | none => none
        else if c = '\x7d' then some ([(k, v)], r4)
        else none

/-- `json.Unmarshal` into `ManagerMeta`, modelled on the canonical layout. -/
def decodeManagerMeta (s : List Char) : Option ManagerMeta :=
  match expectChar '\x7b' s with
  | none => none
  | some r =>
  match skipWs r with
  | [] => none
  | c :: r2 =>
    if c = '\x7d' then if skipWs r2 = [] then some [] else none
    else
      match parseEntries (s.length + 1) (c :: r2) with
      | some (es, rest) => if skipWs rest = [] then some es else none
      | none => none

/-- Parse the key/value pairs of a serialized `GlobalManagerConfig`; unknown
keys are ignored and a later duplicate key wins, as in `json.Unmarshal`. -/
def parseConfigPairs : Nat → List Char → GlobalManagerConfig →
    Option (GlobalManagerConfig × List Char)
  | 0, _, _ => none
  | f + 1, s, acc =>
    match parseJString s with
    | none => none
    | some (k, r1) =>
    match expectChar ':' r1 with
    | none => none
    | some r2 =>
    match parseJString r2 with
    | none => none
    | some (v, r3) =>
      let acc2 :=
        if k = keySitesBase then { acc with sitesBaseDirectory := v }
        else if k = keyTheme then { acc with theme := v }
        else acc
      match skipWs r3 with
      | [] => none
      | c :: r4 =>
        if c = ',' then parseConfigPairs f r4 acc2
        else if c = '\x7d' then some (acc2, r4)
        else none

/-- `json.Unmarshal` into `GlobalManagerConfig`. -/
def decodeGlobalConfig (s : List Char) : Option GlobalManagerConfig :=
  match expectChar '\x7b' s with
  | none => none
  | some r =>
  match skipWs r with
  | [] => none
  | c :: r2 =>
    if c = '\x7d' then if skipWs r2 = [] then some defaultGlobalConfig else none
    else
      match parseConfigPairs (s.length + 1) (c :: r2) defaultGlobalConfig with
      | some (cfg, rest) => if skipWs rest = [] then some cfg else none
      | none => none

/-- Does the data consist of exactly an empty JSON object (possibly with
whitespace)? This is precisely the condition under which the generic
`json.Unmarshal` fallback in `readManagerMeta` yields an empty map. -/
def isEmptyJsonObject (s : List Char) : Bool :=
  match skipWs s with
  | '\x7b' :: r =>
    match skipWs r with
    | '\x7d' :: r2 => skipWs r2 = []
    | _ => false
  | _ => false

/-! ## Filesystem model

The on-disk state shared by the store, the lock and the registry: an
association list from path to file content. -/

/-- Filesystem state: path to content. -/
abbrev FS := List (List Char × List Char)

/-- Look up the value of the first entry with the given key. -/
def lookupAL {β : Type} : List (List Char × β) → List Char → Option β
  | [], _ => none
  | (k, v) :: t, p => if k = p then some v else lookupAL t p

/-- Replace the first entry with the given key, or append a new one
(the update semantics of a Go map, and of writing a file). -/
def setAL {β : Type} : List (List Char × β) → List Char → β → List (List Char × β)
  | [], p, c => [(p, c)]
  | (k, v) :: t, p, c => if k = p then (p, c) :: t else (k, v) :: setAL t p c

/-- Remove every entry with the given key (deleting a file / map key). -/
def eraseAL {β : Type} : List (List Char × β) → List Char → List (List Char × β)
  | [], _ => []
  | (k, v) :: t, p => if k = p then eraseAL t p else (k, v) :: eraseAL t p

/-- Content of the file at `p`, if it exists. -/
def fsRead (fs : FS) (p : List Char) : Option (List Char) := lookupAL fs p

/-- Does a file exist at `p`? -/
def fsExists (fs : FS) (p : List Char) : Bool := (lookupAL fs p).isSome

/-! ## Mutual-exclusion sentinel (`FileLock` in `json_helpers.go`) -/

/-- `FileLock.Lock`: `os.OpenFile(path, O_CREATE|O_EXCL, 0600)` — fails iff
the sentinel file already exists, otherwise creates the zero-byte sentinel. -/
def fileLockLock (fs : FS) (path : List Char) : Except String Unit × FS :=
  if fsExists fs path then (.error "lock exists or creation failed", fs)
  else (.ok (), setAL fs path [])

/-- `FileLock.Unlock`: `os.Remove(path)` — deletes the sentinel
unconditionally; `os.Remove` reports an error if the file is absent. -/
def fileLockUnlock (fs : FS) (path : List Char) : Except String Unit × FS :=
  if fsExists fs path then (.ok (), eraseAL fs path)
  else (.error "remove: no such file or directory", fs)

/-! ## Persistent store (`read/writeManagerMeta`, `read/writeGlobalManagerConfig`)

`os.CreateTemp(filepath.Dir(target), base+".*.tmp")` is modelled by the path
`target ++ "." ++ rnd ++ ".tmp"` for a caller-invisible random string `rnd`
(both call sites pass a pattern whose stem is the target's base name, and the
target paths produced by `getManagerMetaPath`/`getGlobalConfigPath` end in
that base name). Fallible I/O steps are driven by injected error flags. -/

/-- The sentinel path used by `writeManagerMeta`: `metaPath + ".lock"`. -/
def lockPathOf (metaPath : List Char) : List Char :=
  metaPath ++ ['.', 'l', 'o', 'c', 'k']

/-- The temp-file path chosen by `os.CreateTemp` in the two writers. -/
def tempPathOf (target rnd : List Char) : List Char :=
  target ++ '.' :: (rnd ++ ['.', 't', 'm', 'p'])

/-- Error injection for the fallible steps of an atomic write. -/
structure WriteErrs where
  createTempFail : Bool
  writeFail : Bool
  closeFail : Bool
  renameFail : Bool
deriving DecidableEq

/-- No injected failures. -/
def noWriteErrs : WriteErrs := ⟨false, false, false, false⟩

/-- `writeManagerMeta`: acquire the sentinel, marshal, write a temp file in
the target's directory, close it, rename it onto the target; the deferred
cleanups remove the temp file (if still present) and the sentinel on every
exit path. `json.MarshalIndent` cannot fail on a `ManagerMeta` value. -/
def writeManagerMeta (fs : FS) (metaPath rnd : List Char) (e : WriteErrs)
    (meta : ManagerMeta) : Except String Unit × FS :=
  let lockPath := lockPathOf metaPath
  if fsExists fs lockPath then
    (.error "could not acquire lock on metadata file", fs)
  else
    let fs1 := setAL fs lockPath []
    let tempPath := tempPathOf metaPath rnd
    let data := encodeManagerMeta meta
    if e.createTempFail then
      (.error "could not create temp file for metadata", eraseAL fs1 lockPath)
    else
      let fs2 := setAL fs1 tempPath []
      if e.writeFail then
        (.error "failed to write data to temp metadata file",
         eraseAL (eraseAL fs2 tempPath) lockPath)
      else
        let fs3 := setAL fs2 tempPath data
        if e.closeFail then
          (.error "failed to close temp metadata file",
           eraseAL (eraseAL fs3 tempPath) lockPath)
        else if e.renameFail then
          (.error "failed to rename temp metadata file",
           eraseAL (eraseAL fs3 tempPath) lockPath)
        else
          (.ok (), eraseAL (setAL (eraseAL fs3 tempPath) metaPath data) lockPath)

/-- `writeGlobalManagerConfig`: the same atomic-write discipline without the
sentinel (temp file in the target's directory, write, close, rename; the
deferred cleanup removes a leftover temp file on every failure path). -/
def writeGlobalManagerConfig (fs : FS) (configPath rnd : List Char) (e : WriteErrs)
    (config : GlobalManagerConfig) : Except String Unit × FS :=
  let tempPath := tempPathOf configPath rnd
  let data := encodeGlobalConfig config
  if e.createTempFail then
    (.error "could not create temp file for global config", fs)
  else
    let fs1 := setAL fs tempPath []
    if e.writeFail then
      (.error "failed to write data to temp global config file", eraseAL fs1 tempPath)
    else
      let fs2 := setAL fs1 tempPath data
      if e.closeFail then
        (.error "failed to close temp global config file", eraseAL fs2 tempPath)
      else if e.renameFail then
        (.error "failed to rename temp global config file", eraseAL fs2 tempPath)
      else
        (.ok (), setAL (eraseAL fs2 tempPath) configPath data)

/-- `readManagerMeta`: missing file or empty file gives the empty map with no
error; a read failure on an existing file is an error; content that fails to
unmarshal gives the empty map, silently when the content is a bare empty JSON
object and with a warning otherwise. The returned `Bool` records whether the
corruption warning was printed. -/
def readManagerMeta (fs : FS) (metaPath : List Char) (readFail : Bool) :
    Except String ManagerMeta × Bool :=
  match fsRead fs metaPath with
  | none => (.ok [], false)
  | some data =>
    if readFail then (.error "failed to read manager meta file", false)
    else if data = [] then (.ok [], false)
    else
      match decodeManagerMeta data with
      | some m => (.ok m, false)
      | none =>
        if isEmptyJsonObject data then (.ok [], false)
        else (.ok [], true)

/-- `readGlobalManagerConfig`: missing file or empty file gives the zero
config with no error; a read failure on an existing file is an error; content
that fails to unmarshal gives the zero config plus a warning. -/
def readGlobalManagerConfig (fs : FS) (configPath : List Char) (readFail : Bool) :
    Except String GlobalManagerConfig × Bool :=
  match fsRead fs configPath with
  | none => (.ok defaultGlobalConfig, false)
  | some data =>
    if readFail then (.error "failed to read global config file", false)
    else if data = [] then (.ok defaultGlobalConfig, false)
    else
      match decodeGlobalConfig data with
      | some c => (.ok c, false)
      | none => (.ok defaultGlobalConfig, true)

/-! ## Port allocator (`findAvailablePort` in `json_helpers.go`)

`rand.Int(rand.Reader, big.NewInt(range))` yields a uniform value in
`[0, range)`; the draw at attempt `i` is modelled by `draws i`, with `none`
standing for a failed read of the randomness source (the code `continue`s).
The model reduces the draw modulo the range size, which is the identity on
every value the real generator can produce. `isPortAvailable` (binding and
releasing a TCP listener) is modelled by the oracle `bindable`. -/

/-- The failure message of the exhausted search. -/
def noPortMsg (startPort endPort : Int) : String :=
  s!"could not find an available port between {startPort} and {endPort}"

/-- The attempt loop of `findAvailablePort`. `i` is the index of the next
attempt, `fuel` the remaining attempts, `used` the current claimed set (the
Go map, which the loop extends with OS-busy ports). Returns the result and
the total number of attempts consumed. -/
def fapGo (startPort endPort : Int) (draws : Nat → Option Nat) (bindable : Int → Bool) :
    List Int → Nat → Nat → Except String Int × Nat
  | _, i, 0 => (.error (noPortMsg startPort endPort), i)
  | used, i, f + 1 =>
    match draws i with
    | none => fapGo startPort endPort draws bindable used (i + 1) f
    | some r =>
      let port : Int := startPort + ((r % (endPort - startPort + 1).toNat : Nat) : Int)
      if port ∈ used then fapGo startPort endPort draws bindable used (i + 1) f
      else if bindable port then (.ok port, i + 1)
      else fapGo startPort endPort draws bindable (port :: used) (i + 1) f

/-- `findAvailablePort`: reject an inverted range immediately; otherwise run
up to `(endPort - startPort + 1) * 2` attempts. The second component is the
number of attempts performed. -/
def findAvailablePort (startPort endPort : Int) (usedPorts : List Int)
    (draws : Nat → Option Nat) (bindable : Int → Bool) : Except String Int × Nat :=
  if startPort > endPort then (.error "invalid port range", 0)
  else
    fapGo startPort endPort draws bindable usedPorts 0
      (((endPort - startPort + 1) * 2).toNat)

/-! ## Instance-registry operations

These act on the mapping itself; reading and persisting go through the store
model above, and the `persisted` flag below records whether the single
`writeManagerMeta` call of the operation was reached. Interactive
confirmations are modelled as boolean inputs. -/

/-- Result of `os.Stat` on an entry's directory. -/
inductive DirStat where
  | found
  | missing
  | statError
deriving DecidableEq

/-- The conflict scan plus add/overwrite of `registerInstance` (step 5 and 6
of the function). `rec` is the local meta whose `Directory` field has already
been set to the validated instance path. Returns the final mapping, whether
the write was reached, and whether a conflict was reported. -/
def registerInstance (meta : ManagerMeta) (name : List Char) (rec : InstanceMeta)
    (overwrite : Bool) : ManagerMeta × Bool × Bool :=
  let conflict := meta.any fun e => decide (e.1 = name) || decide (e.2.directory = rec.directory)
  if conflict ∧ ¬overwrite then (meta, false, true)
  else (setAL meta name rec, true, conflict)

/-- `pruneInstances`: scan each entry's directory, collect the names whose
directory is missing (a stat error other than not-exist does not count), and
after confirmation delete exactly those names and persist once. Returns the
missing names, the final mapping, and whether the write was reached. -/
def pruneInstances (meta : ManagerMeta) (dirStat : List Char → DirStat)
    (confirm : Bool) : List (List Char) × ManagerMeta × Bool :=
  if meta = [] then ([], meta, false)
  else
    let missing := (meta.filter fun e => decide (dirStat e.2.directory = .missing)).map
      fun e => e.1
    if missing = [] then ([], meta, false)
    else if ¬confirm then (missing, meta, false)
    else (missing, meta.filter fun e => decide (e.1 ∉ missing), true)

/-- What the status scan of `updateStatuses` observes for one directory:
whether `os.Stat` reported not-exist, and the `docker compose ps` output. -/
structure StatusProbe where
  dirMissing : Bool
  services : List Char

/-- `startsWith s sub`: does `s` begin with `sub`? -/
def startsWith : List Char → List Char → Bool
  | _, [] => true
  | [], _ :: _ => false
  | c :: cs, d :: ds => c = d && startsWith cs ds

/-- `strings.Contains` on char lists. -/
def containsSub : List Char → List Char → Bool
  | [], sub => startsWith [] sub
  | c :: t, sub => startsWith (c :: t) sub || containsSub t sub

/-- The service-name heuristic of `updateStatuses`. -/
def hasRunningService (out : List Char) : Bool :=
  containsSub out "wordpress".toList || containsSub out "wp".toList ||
    containsSub out "web".toList || containsSub out "app".toList

/-- The status computed by `updateStatuses` for one instance. -/
def computeStatus (p : StatusProbe) : List Char :=
  if p.dirMissing then "Directory Missing".toList
  else if hasRunningService p.services then "Running".toList
  else "Stopped".toList

/-- Copy of a record with only the `status` field replaced. -/
def withStatus (r : InstanceMeta) (s : List Char) : InstanceMeta :=
  { r with status := s }

/-- `updateStatuses`: recompute each entry's status from its directory probe,
store the updated copy back under the same name, and persist the whole
mapping once iff some status changed. -/
def updateStatuses (meta : ManagerMeta) (probe : List Char → StatusProbe) :
    ManagerMeta × Bool :=
  if meta = [] then (meta, false)
  else
    ((meta.map fun e => (e.1, withStatus e.2 (computeStatus (probe e.2.directory)))),
     meta.any fun e => !(e.2.status = computeStatus (probe e.2.directory) : Bool))

/-- Directory part of a path: everything up to and including the last `/`. -/
def dirOf (p : List Char) : List Char :=
  (p.reverse.dropWhile fun c => !(c = '/' : Bool)).reverse

/-- Sample registry used to instantiate the claim theorems on concrete data. -/
def sampleRegistry : ManagerMeta :=
  [("A".toList, ⟨"/srv/a".toList, "2025-01-01".toList, "6.4".toList, "8.0".toList, 8081,
    "Running".toList⟩),
   ("B".toList, ⟨"/srv/b".toList, "2025-01-02".toList, "6.4".toList, "8.0".toList, 8082,
    "Running".toList⟩),
   ("C".toList, ⟨"/srv/c".toList, "2025-01-03".toList, "6.4".toList, "8.0".toList, 8083,
    "Stopped".toList⟩)]

/-- Directory-status oracle for the sample registry: only `/srv/b` is missing. -/
def sampleDirStat (d : List Char) : DirStat :=
  if d = "/srv/b".toList then DirStat.missing else DirStat.found

/-- Status-probe oracle for the sample registry: every directory present, a
WordPress service reported running. -/
def sampleProbe (_ : List Char) : StatusProbe := ⟨false, "wordpress".toList⟩

/-! ## Lemmas: whitespace and scanning -/

theorem skipWs_cons_ws {c : Char} (h : isWsChar c = true) (s : List Char) :
    skipWs (c :: s) = skipWs s := by
  simp [skipWs, h]

theorem skipWs_cons_not_ws {c : Char} (h : isWsChar c = false) (s : List Char) :
    skipWs (c :: s) = c :: s := by
  simp [skipWs, h]

theorem skipWs_append_ws {w : List Char} (hw : ∀ c ∈ w, isWsChar c = true) (s : List Char) :
    skipWs (w ++ s) = skipWs s := by
  induction w with
  | nil => rfl
  | cons c t ih =>
    simp only [List.cons_append]
    rw [skipWs_cons_ws (hw c (by simp)), ih fun d hd => hw d (by simp [hd])]

theorem skipWs_idem (s : List Char) : skipWs (skipWs s) = skipWs s := by
  induction s with
  | nil => rfl
  | cons c t ih =>
    by_cases h : isWsChar c = true
    · rw [skipWs_cons_ws h, ih]
    · rw [skipWs_cons_not_ws (by simpa using h), skipWs_cons_not_ws (by simpa using h)]

theorem parseJString_ws {w : List Char} (hw : ∀ c ∈ w, isWsChar c = true) (s : List Char) :
    parseJString (w ++ s) = parseJString s := by
  simp [parseJString, skipWs_append_ws hw]

theorem expectChar_ws {w : List Char} (hw : ∀ c ∈ w, isWsChar c = true)
    (c : Char) (s : List Char) : expectChar c (w ++ s) = expectChar c s := by
  simp [expectChar, skipWs_append_ws hw]

theorem parseJInt_ws {w : List Char} (hw : ∀ c ∈ w, isWsChar c = true) (s : List Char) :
    parseJInt (w ++ s) = parseJInt s := by
  simp [parseJInt, skipWs_append_ws hw]

theorem parseFieldStr_ws {w : List Char} (hw : ∀ c ∈ w, isWsChar c = true)
    (key s : List Char) : parseFieldStr key (w ++ s) = parseFieldStr key s := by
  simp [parseFieldStr, parseJString_ws hw]

theorem parseFieldInt_ws {w : List Char} (hw : ∀ c ∈ w, isWsChar c = true)
    (key s : List Char) : parseFieldInt key (w ++ s) = parseFieldInt key s := by
  simp [parseFieldInt, parseJString_ws hw]

theorem parseInstanceMeta_ws {w : List Char} (hw : ∀ c ∈ w, isWsChar c = true)
    (s : List Char) : parseInstanceMeta (w ++ s) = parseInstanceMeta s := by
  simp [parseInstanceMeta, expectChar_ws hw]

theorem parseEntries_ws {w : List Char} (hw : ∀ c ∈ w, isWsChar c = true)
    (f : Nat) (s : List Char) : parseEntries f (w ++ s) = parseEntries f s := by
  cases f with
  | zero => rfl
  | succ f => simp [parseEntries, parseJString_ws hw]

/-! ## Lemmas: string-escape round trip -/

theorem hexVal_hexDigitChar {n : Nat} (h : n < 16) : hexVal (hexDigitChar n) = some n := by
  interval_cases n <;> decide

theorem length_escapeChar_pos (c : Char) : 1 ≤ (escapeChar c).length := by
  unfold escapeChar
  repeat' split
  all_goals simp

theorem length_escapeChars_ge (s : List Char) : s.length ≤ (escapeChars s).length := by
  induction s with
  | nil => simp [escapeChars]
  | cons c cs ih =>
    have := length_escapeChar_pos c
    simp only [escapeChars, List.length_append, List.length_cons]
    omega

theorem parseStringBody_escapeChars (s : List Char) : ∀ f, s.length < f → ∀ rest,
    parseStringBody f (escapeChars s ++ '"' :: rest) = some (s, rest) := by
  induction s with
  | nil =>
    intro f hf rest
    cases f with
    | zero => omega
    | succ f => simp [escapeChars, parseStringBody]
  | cons c cs ih =>
    intro f hf rest
    cases f with
    | zero => omega
    | succ f =>
    simp only [List.length_cons] at hf
    have hcs : cs.length < f := by omega
    have hrec := ih f hcs rest
    by_cases h1 : c = '"'
    · subst h1
      simp [escapeChars, escapeChar, parseStringBody, unescapeShort, hrec]
    by_cases h2 : c = '\\'
    · subst h2
      simp [escapeChars, escapeChar, parseStringBody, unescapeShort, hrec]
    by_cases h3 : c = '\n'
    · subst h3
      simp [escapeChars, escapeChar, parseStringBody, unescapeShort, hrec]
    by_cases h4 : c = '\r'
    · subst h4
      simp [escapeChars, escapeChar, parseStringBody, unescapeShort, hrec]
    by_cases h5 : c = '\t'
    · subst h5
      simp [escapeChars, escapeChar, parseStringBody, unescapeShort, hrec]
    by_cases h6 : c.toNat < 32 ∨ c = '<' ∨ c = '>' ∨ c = '&'
    · have hbound : c.toNat < 256 := by
        rcases h6 with h | h | h | h
        · omega
        all_goals (subst h; decide)
      have hdiv : c.toNat / 16 < 16 := by omega
      have hmod : c.toNat % 16 < 16 := by omega
      have hns : ¬(55296 ≤ c.toNat ∧ c.toNat < 57344) := by omega
      have hchar : ∀ n : Nat, n = c.toNat → uCharOf n = c := by
        intro n hn
        subst hn
        simp [uCharOf, hns]
      have hv0 : hexVal '0' = some 0 := by decide
      simp only [escapeChars, escapeChar, h1, h2, h3, h4, h5, h6, ite_false, ite_true,
        if_neg, if_pos, List.cons_append, List.append_assoc]
      simp only [List.cons_append] at hrec
      simp [parseStringBody, hv0, hexVal_hexDigitChar hdiv, hexVal_hexDigitChar hmod, hrec]
      refine hchar _ ?_
      omega
    by_cases h7 : c.toNat = 8232 ∨ c.toNat = 8233
    · have hmod : c.toNat % 16 < 16 := by omega
      have hns : ¬(55296 ≤ c.toNat ∧ c.toNat < 57344) := by
        rcases h7 with h | h <;> omega
      have hchar : ∀ n : Nat, n = c.toNat → uCharOf n = c := by
        intro n hn
        subst hn
        simp [uCharOf, hns]
      have hv0 : hexVal '0' = some 0 := by decide
      have hv2 : hexVal '2' = some 2 := by decide
      simp only [escapeChars, escapeChar, h1, h2, h3, h4, h5, h6, h7, ite_false, ite_true,
        if_neg, if_pos, List.cons_append, List.append_assoc]
      simp only [List.cons_append] at hrec
      simp [parseStringBody, hv0, hv2, hexVal_hexDigitChar hmod, hrec]
      refine hchar _ ?_
      rcases h7 with h | h <;> omega
    · simp only [escapeChars, escapeChar, h1, h2, h3, h4, h5, h6, h7, ite_false, if_neg,
        List.cons_append, List.append_assoc]
      simp [parseStringBody, h1, h2, hrec]

theorem parseJString_quote (s rest : List Char) :
    parseJString (quoteString s ++ rest) = some (s, rest) := by
  have hws : skipWs ('"' :: (escapeChars s ++ '"' :: rest)) =
      '"' :: (escapeChars s ++ '"' :: rest) := skipWs_cons_not_ws (by decide) _
  simp only [quoteString, List.cons_append, List.append_assoc, List.singleton_append]
  simp only [parseJString, hws, ite_true, if_pos]
  exact parseStringBody_escapeChars s _
    (by have := length_escapeChars_ge s; simp; omega) rest

/-! ## Lemmas: integer round trip -/

theorem digitChar_isDigit {n : Nat} (h : n < 10) : (digitChar n).isDigit = true := by
  interval_cases n <;> decide

theorem digitChar_toNat {n : Nat} (h : n < 10) : (digitChar n).toNat = 48 + n := by
  interval_cases n <;> decide

theorem digitChar_ne_minus {n : Nat} (h : n < 10) : digitChar n ≠ '-' := by
  interval_cases n <;> decide

theorem digitChar_not_ws {n : Nat} (h : n < 10) : isWsChar (digitChar n) = false := by
  interval_cases n <;> decide

theorem natCharsAux_mem : ∀ f n : Nat, ∀ c ∈ natCharsAux f n, ∃ k, k < 10 ∧ c = digitChar k := by
  intro f
  induction f with
  | zero => intro n c hc; simp [natCharsAux] at hc
  | succ f ih =>
    intro n c hc
    by_cases hn : n < 10
    · simp [natCharsAux, hn] at hc
      exact ⟨n, hn, hc⟩
    · simp only [natCharsAux, hn, ite_false, if_neg, List.mem_append, List.mem_singleton] at hc
      rcases hc with hc | hc
      · exact ih (n / 10) c hc
      · exact ⟨n % 10, by omega, hc⟩

theorem natCharsAux_ne_nil : ∀ f n : Nat, n < f → natCharsAux f n ≠ [] := by
  intro f
  cases f with
  | zero => intro n h; omega
  | succ f =>
    intro n _
    by_cases hn : n < 10
    · simp [natCharsAux, hn]
    · simp [natCharsAux, hn]

theorem foldl_natCharsAux : ∀ f n acc : Nat, n < f →
    List.foldl (fun a c => 10 * a + (c.toNat - 48)) acc (natCharsAux f n) =
      acc * 10 ^ (natCharsAux f n).length + n := by
  intro f
  induction f with
  | zero => intro n acc h; omega
  | succ f ih =>
    intro n acc h
    by_cases hn : n < 10
    · simp [natCharsAux, hn, digitChar_toNat hn]
      omega
    · have h10 : n / 10 < f := by omega
      have hih := ih (n / 10) acc h10
      simp only [natCharsAux, hn, ite_false, if_neg, List.foldl_append, List.foldl_cons,
        List.foldl_nil, List.length_append, List.length_singleton, hih,
        digitChar_toNat (show n % 10 < 10 by omega)]
      have hrw : 48 + n % 10 - 48 = n % 10 := by omega
      rw [hrw, pow_succ]
      have hmod10 : 10 * (n / 10) + n % 10 = n := by omega
      calc 10 * (acc * 10 ^ (natCharsAux f (n / 10)).length + n / 10) + n % 10 =
          acc * (10 ^ (natCharsAux f (n / 10)).length * 10) + (10 * (n / 10) + n % 10) := by
            ring
        _ = acc * (10 ^ (natCharsAux f (n / 10)).length * 10) + n := by rw [hmod10]

theorem digitsToNat_natToChars (n : Nat) : digitsToNat (natToChars n) = n := by
  have := foldl_natCharsAux (n + 1) n 0 (Nat.lt_succ_self n)
  simpa [digitsToNat, natToChars] using this

theorem takeDigits_append_comma (ds : List Char) (hds : ∀ c ∈ ds, c.isDigit = true)
    (r : List Char) : takeDigits (ds ++ ',' :: r) = (ds, ',' :: r) := by
  induction ds with
  | nil => simp [takeDigits]
  | cons c t ih =>
    simp [takeDigits, hds c (by simp), ih fun d hd => hds d (by simp [hd])]

theorem parseJInt_intToChars (n : Int) (r : List Char) :
    parseJInt (intToChars n ++ ',' :: r) = some (n, ',' :: r) := by
  by_cases hn : n < 0
  · have hm : (-n).toNat < (-n).toNat + 1 := Nat.lt_succ_self _
    have hds : ∀ c ∈ natToChars (-n).toNat, c.isDigit = true := by
      intro c hc
      obtain ⟨k, hk, hck⟩ := natCharsAux_mem _ _ c hc
      exact hck ▸ digitChar_isDigit hk
    have htake := takeDigits_append_comma (natToChars (-n).toNat) hds r
    have hne : natToChars (-n).toNat ≠ [] := natCharsAux_ne_nil _ _ hm
    simp only [intToChars, hn, ite_true, if_pos, List.cons_append]
    rw [parseJInt, skipWs_cons_not_ws (by decide)]
    simp [htake, hne, digitsToNat_natToChars]
    omega
  · have hm : n.toNat < n.toNat + 1 := Nat.lt_succ_self _
    have hne := natCharsAux_ne_nil (n.toNat + 1) n.toNat hm
    have hds : ∀ c ∈ natToChars n.toNat, c.isDigit = true := by
      intro c hc
      obtain ⟨k, hk, hck⟩ := natCharsAux_mem _ _ c hc
      exact hck ▸ digitChar_isDigit hk
    have htake := takeDigits_append_comma (natToChars n.toNat) hds r
    rcases hhead : natToChars n.toNat with _ | ⟨d, t⟩
    · exact absurd hhead hne
    · obtain ⟨k, hk, hdk⟩ := natCharsAux_mem (n.toNat + 1) n.toNat d (by
        have hhead2 : natCharsAux (n.toNat + 1) n.toNat = d :: t := hhead
        simp [hhead2])
      have hdnw : isWsChar d = false := hdk ▸ digitChar_not_ws hk
      have hdnm : ¬d = '-' := hdk ▸ digitChar_ne_minus hk
      rw [hhead] at htake
      simp only [intToChars, hn, ite_false, if_neg, hhead, List.cons_append]
      rw [parseJInt, skipWs_cons_not_ws hdnw]
      simp only [hdnm, ite_false, if_neg]
      rw [show d :: (t ++ ',' :: r) = (d :: t) ++ ',' :: r from rfl, htake]
      have hval : digitsToNat (d :: t) = n.toNat := by
        rw [← hhead, digitsToNat_natToChars]
      simp [hval]
      omega

/-! ## Lemmas: record and registry round trip -/

theorem parseJString_cons_ws {c : Char} (h : isWsChar c = true) (s : List Char) :
    parseJString (c :: s) = parseJString s := by
  simp [parseJString, skipWs_cons_ws h]

theorem expectChar_cons_ws {c : Char} (h : isWsChar c = true) (d : Char) (s : List Char) :
    expectChar d (c :: s) = expectChar d s := by
  simp [expectChar, skipWs_cons_ws h]

theorem parseFieldStr_cons_ws {c : Char} (h : isWsChar c = true) (key s : List Char) :
    parseFieldStr key (c :: s) = parseFieldStr key s := by
  simp [parseFieldStr, parseJString_cons_ws h]

theorem parseFieldInt_cons_ws {c : Char} (h : isWsChar c = true) (key s : List Char) :
    parseFieldInt key (c :: s) = parseFieldInt key s := by
  simp [parseFieldInt, parseJString_cons_ws h]

theorem parseInstanceMeta_cons_ws {c : Char} (h : isWsChar c = true) (s : List Char) :
    parseInstanceMeta (c :: s) = parseInstanceMeta s := by
  simp [parseInstanceMeta, expectChar_cons_ws h]

theorem parseEntries_cons_ws {c : Char} (h : isWsChar c = true) (f : Nat) (s : List Char) :
    parseEntries f (c :: s) = parseEntries f s := by
  cases f with
  | zero => rfl
  | succ f => simp [parseEntries, parseJString_cons_ws h]

theorem expectChar_self {c : Char} (h : isWsChar c = false) (s : List Char) :
    expectChar c (c :: s) = some s := by
  simp [expectChar, skipWs_cons_not_ws h]

theorem parseJString_skipWs (s : List Char) : parseJString (skipWs s) = parseJString s := by
  simp [parseJString, skipWs_idem]

theorem parseEntries_skipWs (f : Nat) (s : List Char) :
    parseEntries f (skipWs s) = parseEntries f s := by
  cases f with
  | zero => rfl
  | succ f => simp [parseEntries, parseJString_skipWs]

theorem parseFieldStr_encode (key v rest : List Char) :
    parseFieldStr key (quoteString key ++ ':' :: ' ' :: (quoteString v ++ rest)) =
      some (v, rest) := by
  have h1 := parseJString_quote key (':' :: ' ' :: (quoteString v ++ rest))
  have h2 := parseJString_quote v rest
  simp only [parseFieldStr, h1, ite_true, if_pos, expectChar_self (c := ':') (by decide),
    parseJString_cons_ws (c := ' ') (by decide), h2]

theorem parseFieldInt_encode (key : List Char) (n : Int) (r0 : List Char) :
    parseFieldInt key (quoteString key ++ ':' :: ' ' :: (intToChars n ++ ',' :: r0)) =
      some (n, ',' :: r0) := by
  have h1 := parseJString_quote key (':' :: ' ' :: (intToChars n ++ ',' :: r0))
  have h2 := parseJInt_intToChars n r0
  simp only [parseFieldInt, h1, ite_true, if_pos, expectChar_self (c := ':') (by decide)]
  rw [show (' ' :: (intToChars n ++ ',' :: r0)) = [' '] ++ (intToChars n ++ ',' :: r0) from rfl,
    parseJInt_ws (by decide), h2]

theorem parseInstanceMeta_encode {ind : List Char} (hind : ∀ c ∈ ind, isWsChar c = true)
    (r : InstanceMeta) (rest : List Char) :
    parseInstanceMeta (encodeInstanceMeta ind r ++ rest) = some (r, rest) := by
  simp only [encodeInstanceMeta, fieldLine, List.append_assoc, List.cons_append,
    List.singleton_append, List.nil_append]
  simp only [parseInstanceMeta,
    expectChar_self (c := '\x7b') (by decide),
    parseFieldStr_cons_ws (c := '\n') (by decide),
    parseFieldInt_cons_ws (c := '\n') (by decide),
    expectChar_cons_ws (c := '\n') (by decide),
    parseFieldStr_ws hind, parseFieldInt_ws hind, expectChar_ws hind,
    parseFieldStr_cons_ws (c := ' ') (by decide),
    parseFieldInt_cons_ws (c := ' ') (by decide),
    parseFieldStr_encode, parseFieldInt_encode,
    expectChar_self (c := ',') (by decide),
    expectChar_self (c := '\x7d') (by decide)]

theorem parseEntries_encode {ind : List Char} (hind : ∀ c ∈ ind, isWsChar c = true) :
    ∀ es : ManagerMeta, es ≠ [] → ∀ f : Nat, es.length ≤ f → ∀ rest : List Char,
      parseEntries f (encodeEntries ind es ++ '\n' :: '\x7d' :: rest) = some (es, rest) := by
  intro es
  induction es with
  | nil => intro h; exact absurd rfl h
  | cons e es ih =>
    intro _ f hf rest
    cases f with
    | zero => simp at hf
    | succ f =>
    cases es with
    | nil =>
      simp only [encodeEntries, encodeEntry, List.append_assoc, List.cons_append,
        List.singleton_append, List.nil_append]
      simp only [parseEntries, parseJString_ws hind, parseJString_quote,
        expectChar_self (c := ':') (by decide),
        parseInstanceMeta_cons_ws (c := ' ') (by decide),
        parseInstanceMeta_encode hind,
        skipWs_cons_ws (c := '\n') (by decide),
        skipWs_cons_not_ws (c := '\x7d') (by decide)]
      simp
    | cons e2 es2 =>
      have hrec := ih (by simp) f (by simp at hf ⊢; omega) rest
      simp only [encodeEntries, encodeEntry, List.append_assoc, List.cons_append,
        List.singleton_append, List.nil_append] at hrec ⊢
      simp only [parseEntries, parseJString_ws hind, parseJString_quote,
        expectChar_self (c := ':') (by decide),
        parseInstanceMeta_cons_ws (c := ' ') (by decide),
        parseInstanceMeta_encode hind,
        skipWs_cons_not_ws (c := ',') (by decide),
        parseEntries_cons_ws (c := '\n') (by decide), hrec]
      simp

theorem length_encodeEntry_pos (ind : List Char) (e : List Char × InstanceMeta) :
    1 ≤ (encodeEntry ind e).length := by
  simp only [encodeEntry, quoteString, List.length_append, List.length_cons]
  omega

theorem length_encodeEntries (ind : List Char) :
    ∀ es : ManagerMeta, es.length ≤ (encodeEntries ind es).length := by
  intro es
  induction es with
  | nil => simp [encodeEntries]
  | cons e es ih =>
    cases es with
    | nil =>
      have := length_encodeEntry_pos ind e
      simpa [encodeEntries] using this
    | cons e2 es2 =>
      have h1 := length_encodeEntry_pos ind e
      simp only [encodeEntries, List.length_append, List.length_cons] at ih ⊢
      omega

theorem encodeManagerMeta_ne_nil (m : ManagerMeta) : encodeManagerMeta m ≠ [] := by
  cases m <;> simp [encodeManagerMeta]

theorem decodeManagerMeta_encodeManagerMeta (m : ManagerMeta) :
    decodeManagerMeta (encodeManagerMeta m) = some m := by
  cases m with
  | nil => decide
  | cons e es =>
    have hind : ∀ c ∈ ([' ', ' '] : List Char), isWsChar c = true := by decide
    have hshape : ∃ rst : List Char,
        encodeEntries [' ', ' '] (e :: es) ++ '\n' :: ['\x7d'] =
          ' ' :: ' ' :: (quoteString e.1 ++ rst) := by
      cases es with
      | nil =>
        refine ⟨':' :: ' ' :: (encodeInstanceMeta [' ', ' '] e.2 ++ '\n' :: ['\x7d']), ?_⟩
        simp [encodeEntries, encodeEntry, List.append_assoc]
      | cons e2 es2 =>
        refine ⟨':' :: ' ' :: (encodeInstanceMeta [' ', ' '] e.2 ++
          (',' :: '\n' :: (encodeEntries [' ', ' '] (e2 :: es2) ++ '\n' :: ['\x7d']))), ?_⟩
        simp [encodeEntries, encodeEntry, List.append_assoc]
    obtain ⟨rst, hrst⟩ := hshape
    have hskip : skipWs ('\n' :: (encodeEntries [' ', ' '] (e :: es) ++ '\n' :: ['\x7d'])) =
        '"' :: (escapeChars e.1 ++ ('"' :: rst)) := by
      rw [skipWs_cons_ws (by decide), hrst, skipWs_cons_ws (by decide),
        skipWs_cons_ws (by decide)]
      simp only [quoteString, List.cons_append, List.append_assoc, List.singleton_append]
      rw [skipWs_cons_not_ws (by decide)]
      simp
    simp only [encodeManagerMeta]
    simp only [decodeManagerMeta, expectChar_self (c := '\x7b') (by decide), hskip]
    have hfuel : (e :: es).length ≤
        ('\x7b' :: '\n' :: (encodeEntries [' ', ' '] (e :: es) ++ '\n' :: ['\x7d'])).length
          + 1 := by
      have := length_encodeEntries [' ', ' '] (e :: es)
      simp only [List.length_cons, List.length_append] at this ⊢
      omega
    have key := parseEntries_encode hind (e :: es) (by simp) _ hfuel []
    rw [hskip.symm, parseEntries_skipWs, parseEntries_cons_ws (c := '\n') (by decide), key]
    simp [skipWs]

/-! ## Lemmas: the association-list state -/

theorem lookupAL_setAL_self {β : Type} (l : List (List Char × β)) (p : List Char) (c : β) :
    lookupAL (setAL l p c) p = some c := by
  induction l with
  | nil => simp [setAL, lookupAL]
  | cons e t ih =>
    by_cases h : e.1 = p
    · simp [setAL, lookupAL, h]
    · simp [setAL, lookupAL, h, ih]

theorem lookupAL_setAL_ne {β : Type} (l : List (List Char × β)) {p q : List Char} (c : β)
    (h : q ≠ p) : lookupAL (setAL l p c) q = lookupAL l q := by
  have hpq : ¬p = q := fun hh => h hh.symm
  induction l with
  | nil => simp [setAL, lookupAL, hpq]
  | cons e t ih =>
    obtain ⟨k, v⟩ := e
    by_cases he : k = p
    · subst he
      simp [setAL, lookupAL, hpq]
    · simp [setAL, lookupAL, he, ih]

theorem lookupAL_eraseAL_self {β : Type} (l : List (List Char × β)) (p : List Char) :
    lookupAL (eraseAL l p) p = none := by
  induction l with
  | nil => simp [eraseAL, lookupAL]
  | cons e t ih =>
    obtain ⟨k, v⟩ := e
    by_cases h : k = p
    · simp [eraseAL, h, ih]
    · simp [eraseAL, lookupAL, h, ih]

theorem lookupAL_eraseAL_ne {β : Type} (l : List (List Char × β)) {p q : List Char}
    (h : q ≠ p) : lookupAL (eraseAL l p) q = lookupAL l q := by
  induction l with
  | nil => simp [eraseAL]
  | cons e t ih =>
    obtain ⟨k, v⟩ := e
    by_cases he : k = p
    · subst he
      have hkq : ¬k = q := fun hh => h (Eq.symm hh)
      simp [eraseAL, lookupAL, hkq, ih]
    · simp [eraseAL, lookupAL, he, ih]

theorem eraseAL_of_absent {β : Type} (l : List (List Char × β)) (p : List Char)
    (h : lookupAL l p = none) : eraseAL l p = l := by
  induction l with
  | nil => rfl
  | cons e t ih =>
    obtain ⟨k, v⟩ := e
    by_cases he : k = p
    · simp [lookupAL, he] at h
    · simp only [lookupAL, he, ite_false, if_neg] at h
      simp [eraseAL, he, ih h]

theorem eraseAL_append {β : Type} (a b : List (List Char × β)) (p : List Char) :
    eraseAL (a ++ b) p = eraseAL a p ++ eraseAL b p := by
  induction a with
  | nil => rfl
  | cons e t ih =>
    obtain ⟨k, v⟩ := e
    by_cases he : k = p
    · simp [eraseAL, he, ih]
    · simp [eraseAL, he, ih]

theorem setAL_of_absent {β : Type} (l : List (List Char × β)) (p : List Char) (c : β)
    (h : lookupAL l p = none) : setAL l p c = l ++ [(p, c)] := by
  induction l with
  | nil => rfl
  | cons e t ih =>
    obtain ⟨k, v⟩ := e
    by_cases he : k = p
    · simp [lookupAL, he] at h
    · simp only [lookupAL, he, ite_false, if_neg] at h
      simp [setAL, he, ih h]

/-! ## Lemmas: paths -/

theorem tempPathOf_ne_target (t rnd : List Char) : tempPathOf t rnd ≠ t := by
  intro h
  have := congrArg List.length h
  simp [tempPathOf] at this

theorem lockPathOf_ne_target (t : List Char) : lockPathOf t ≠ t := by
  intro h
  have := congrArg List.length h
  simp [lockPathOf] at this

theorem tempPathOf_ne_lockPath (t rnd : List Char) : tempPathOf t rnd ≠ lockPathOf t := by
  intro h
  unfold tempPathOf lockPathOf at h
  have h2 : '.' :: (rnd ++ ['.', 't', 'm', 'p']) = ['.', 'l', 'o', 'c', 'k'] :=
    List.append_cancel_left h
  cases rnd with
  | nil => exact absurd h2 (by decide)
  | cons c cs =>
    have := congrArg List.length h2
    simp at this

theorem dropWhile_append_of_all {p : Char → Bool} {a : List Char}
    (h : ∀ c ∈ a, p c = true) (b : List Char) :
    List.dropWhile p (a ++ b) = List.dropWhile p b := by
  induction a with
  | nil => rfl
  | cons c t ih =>
    simp only [List.cons_append, List.dropWhile_cons, h c (by simp), ite_true]
    exact ih fun d hd => h d (by simp [hd])

theorem dirOf_tempPathOf (t : List Char) {rnd : List Char}
    (hslash : ∀ c ∈ rnd, c ≠ '/') : dirOf (tempPathOf t rnd) = dirOf t := by
  unfold dirOf tempPathOf
  rw [List.reverse_append, dropWhile_append_of_all]
  intro c hc
  rw [List.mem_reverse] at hc
  simp only [List.mem_cons, List.mem_append] at hc
  rcases hc with hc | hc | hc
  · subst hc; decide
  · simpa using hslash c hc
  · rcases hc with hc | hc | hc | hc
    · subst hc; decide
    · subst hc; decide
    · subst hc; decide
    · rcases hc with hc | hce
      · subst hc; decide
      · simp at hce

/-! ## Claim theorems: persistent store and sentinel -/

/-- Claim C1: both store writers serialize the record to a temp file in the
target's directory, close it, then rename it onto the target; the write
succeeds exactly when no step fails (and, for `writeManagerMeta`, the
sentinel is free); on any failure the temp file is gone, the error is
returned, and the target's prior content is untouched; on success the target
holds exactly the serialized record. -/
theorem writeStore_atomicRename (fs : FS) (metaPath rnd : List Char) (e : WriteErrs)
    (meta : ManagerMeta) (cfg : GlobalManagerConfig)
    (hfresh : fsRead fs (tempPathOf metaPath rnd) = none)
    (hslash : ∀ c ∈ rnd, c ≠ '/') :
    ((writeManagerMeta fs metaPath rnd e meta).1 = .ok () ↔
      fsExists fs (lockPathOf metaPath) = false ∧ e = noWriteErrs) ∧
    fsRead (writeManagerMeta fs metaPath rnd e meta).2 metaPath =
      (if fsExists fs (lockPathOf metaPath) = false ∧ e = noWriteErrs
        then some (encodeManagerMeta meta) else fsRead fs metaPath) ∧
    fsExists (writeManagerMeta fs metaPath rnd e meta).2 (tempPathOf metaPath rnd) = false ∧
    ((writeGlobalManagerConfig fs metaPath rnd e cfg).1 = .ok () ↔ e = noWriteErrs) ∧
    fsRead (writeGlobalManagerConfig fs metaPath rnd e cfg).2 metaPath =
      (if e = noWriteErrs then some (encodeGlobalConfig cfg) else fsRead fs metaPath) ∧
    fsExists (writeGlobalManagerConfig fs metaPath rnd e cfg).2 (tempPathOf metaPath rnd)
      = false ∧
    dirOf (tempPathOf metaPath rnd) = dirOf metaPath := by
  have hTm : metaPath ≠ tempPathOf metaPath rnd := Ne.symm (tempPathOf_ne_target _ _)
  have hTl : tempPathOf metaPath rnd ≠ lockPathOf metaPath := tempPathOf_ne_lockPath _ _
  have hMl : metaPath ≠ lockPathOf metaPath := Ne.symm (lockPathOf_ne_target _)
  have e1 : ∀ l : FS, lookupAL (eraseAL l (lockPathOf metaPath)) metaPath =
      lookupAL l metaPath := fun l => lookupAL_eraseAL_ne l hMl
  have e2 : ∀ l : FS, lookupAL (eraseAL l (tempPathOf metaPath rnd)) metaPath =
      lookupAL l metaPath := fun l => lookupAL_eraseAL_ne l hTm
  have s1 : ∀ (l : FS) c, lookupAL (setAL l (lockPathOf metaPath) c) metaPath =
      lookupAL l metaPath := fun l c => lookupAL_setAL_ne l c hMl
  have s2 : ∀ (l : FS) c, lookupAL (setAL l (tempPathOf metaPath rnd) c) metaPath =
      lookupAL l metaPath := fun l c => lookupAL_setAL_ne l c hTm
  have t1 : ∀ l : FS, lookupAL (eraseAL l (tempPathOf metaPath rnd))
      (tempPathOf metaPath rnd) = none := fun l => lookupAL_eraseAL_self l _
  have t2 : ∀ l : FS, lookupAL (eraseAL l (lockPathOf metaPath)) (tempPathOf metaPath rnd) =
      lookupAL l (tempPathOf metaPath rnd) := fun l => lookupAL_eraseAL_ne l hTl
  have t3 : ∀ (l : FS) c, lookupAL (setAL l metaPath c) (tempPathOf metaPath rnd) =
      lookupAL l (tempPathOf metaPath rnd) := fun l c => lookupAL_setAL_ne l c (Ne.symm hTm)
  have t4 : ∀ (l : FS) c, lookupAL (setAL l (lockPathOf metaPath) c)
      (tempPathOf metaPath rnd) = lookupAL l (tempPathOf metaPath rnd) :=
    fun l c => lookupAL_setAL_ne l c hTl
  have hfresh2 : lookupAL fs (tempPathOf metaPath rnd) = none := hfresh
  obtain ⟨ct, w, cl, rn⟩ := e
  rcases hLK : lookupAL fs (lockPathOf metaPath) with _ | lockv <;>
    cases ct <;> cases w <;> cases cl <;> cases rn <;>
    simp [writeManagerMeta, writeGlobalManagerConfig, noWriteErrs, fsRead, fsExists, hLK,
      hfresh2, e1, e2, s1, s2, t1, t2, t3, t4, lookupAL_setAL_self,
      dirOf_tempPathOf metaPath hslash]

/-- Claim C6: both store readers return the default value and no error when
the file is missing, the default value plus a corruption warning (not an
error) when the content fails to unmarshal, and an error exactly for a read
failure on an existing file. -/
theorem readStore_defaults (fs : FS) (path : List Char) (readFail : Bool) :
    (fsRead fs path = none →
      readManagerMeta fs path readFail = (.ok [], false) ∧
      readGlobalManagerConfig fs path readFail = (.ok defaultGlobalConfig, false)) ∧
    (∀ data, fsRead fs path = some data → readFail = false → data ≠ [] →
      (decodeManagerMeta data = none → isEmptyJsonObject data = false →
        readManagerMeta fs path readFail = (.ok [], true)) ∧
      (decodeGlobalConfig data = none →
        readGlobalManagerConfig fs path readFail = (.ok defaultGlobalConfig, true))) ∧
    ((∃ msg, (readManagerMeta fs path readFail).1 = .error msg) ↔
      readFail = true ∧ fsRead fs path ≠ none) ∧
    ((∃ msg, (readGlobalManagerConfig fs path readFail).1 = .error msg) ↔
      readFail = true ∧ fsRead fs path ≠ none) := by
  refine ⟨?_, ?_, ?_, ?_⟩
  · intro h
    simp [readManagerMeta, readGlobalManagerConfig, h]
  · intro data hdata hrf hne
    subst hrf
    constructor
    · intro hdm hempty
      simp [readManagerMeta, hdata, hne, hdm, hempty]
    · intro hdg
      simp [readGlobalManagerConfig, hdata, hne, hdg]
  · rcases hfs : fsRead fs path with _ | data
    · simp [readManagerMeta, hfs]
    · cases readFail
      · by_cases hd : data = []
        · simp [readManagerMeta, hfs, hd]
        · rcases hdm : decodeManagerMeta data with _ | m
          · by_cases he : isEmptyJsonObject data = true
            · simp [readManagerMeta, hfs, hd, hdm, he]
            · simp [readManagerMeta, hfs, hd, hdm, he]
          · simp [readManagerMeta, hfs, hd, hdm]
      · simp [readManagerMeta, hfs]
  · rcases hfs : fsRead fs path with _ | data
    · simp [readGlobalManagerConfig, hfs]
    · cases readFail
      · by_cases hd : data = []
        · simp [readGlobalManagerConfig, hfs, hd]
        · rcases hdg : decodeGlobalConfig data with _ | c
          · simp [readGlobalManagerConfig, hfs, hd, hdg]
          · simp [readGlobalManagerConfig, hfs, hd, hdg]
      · simp [readGlobalManagerConfig, hfs]

/-- Claim C7: writing any registry mapping with `writeManagerMeta` and
reading it back with `readManagerMeta` yields exactly the mapping written. -/
theorem writeManagerMeta_readManagerMeta_roundTrip (fs : FS) (metaPath rnd : List Char)
    (meta : ManagerMeta) (hlock : fsExists fs (lockPathOf metaPath) = false) :
    readManagerMeta (writeManagerMeta fs metaPath rnd noWriteErrs meta).2 metaPath false =
      (.ok meta, false) := by
  have hMl : metaPath ≠ lockPathOf metaPath := Ne.symm (lockPathOf_ne_target _)
  have hread : fsRead (writeManagerMeta fs metaPath rnd noWriteErrs meta).2 metaPath =
      some (encodeManagerMeta meta) := by
    simp [writeManagerMeta, noWriteErrs, hlock, fsRead, lookupAL_eraseAL_ne _ hMl,
      lookupAL_setAL_self]
  simp [readManagerMeta, hread, encodeManagerMeta_ne_nil,
    decodeManagerMeta_encodeManagerMeta]

/-- Claim C8: while the sentinel is held a second `Lock` fails and leaves the
state unchanged; after `Unlock` a `Lock` always succeeds; and `Unlock` after
a failed critical section succeeds, restoring the original state. -/
theorem fileLock_mutualExclusion (fs : FS) (path : List Char)
    (hfree : fsExists fs path = false) :
    (fileLockLock fs path).1 = .ok () ∧
    (fileLockLock (fileLockLock fs path).2 path).1 =
      .error "lock exists or creation failed" ∧
    (fileLockLock (fileLockLock fs path).2 path).2 = (fileLockLock fs path).2 ∧
    (∀ gs : FS, (fileLockLock (fileLockUnlock gs path).2 path).1 = .ok ()) ∧
    (fileLockUnlock (fileLockLock fs path).2 path).1 = .ok () ∧
    (fileLockUnlock (fileLockLock fs path).2 path).2 = fs := by
  have hnone : lookupAL fs path = none := by
    have hf := hfree
    unfold fsExists at hf
    rcases h : lookupAL fs path with _ | v
    · rfl
    · rw [h] at hf
      simp at hf
  refine ⟨?_, ?_, ?_, ?_, ?_, ?_⟩
  · simp [fileLockLock, fsExists, hnone]
  · simp [fileLockLock, fsExists, hnone, lookupAL_setAL_self]
  · simp [fileLockLock, fsExists, hnone, lookupAL_setAL_self]
  · intro gs
    rcases hg : lookupAL gs path with _ | v
    · simp [fileLockUnlock, fileLockLock, fsExists, hg]
    · simp [fileLockUnlock, fileLockLock, fsExists, hg, lookupAL_eraseAL_self]
  · simp [fileLockLock, fileLockUnlock, fsExists, hnone, lookupAL_setAL_self]
  · have h2 : (fileLockLock fs path).2 = setAL fs path [] := by
      simp [fileLockLock, fsExists, hnone]
    rw [h2]
    have hex : fsExists (setAL fs path []) path = true := by
      simp [fsExists, lookupAL_setAL_self]
    simp only [fileLockUnlock, hex, ite_true, if_pos]
    rw [setAL_of_absent fs path [] hnone, eraseAL_append, eraseAL_of_absent fs path hnone]
    simp [eraseAL]

/-! ## Claim theorems: port allocator -/

theorem fapGo_ok {startPort endPort : Int} {draws : Nat → Option Nat} {bindable : Int → Bool}
    (hle : startPort ≤ endPort) :
    ∀ (fuel i : Nat) (used : List Int) (port : Int),
      (fapGo startPort endPort draws bindable used i fuel).1 = .ok port →
      startPort ≤ port ∧ port ≤ endPort ∧ port ∉ used := by
  intro fuel
  induction fuel with
  | zero =>
    intro i used port h
    simp [fapGo] at h
  | succ f ih =>
    intro i used port h
    rcases hd : draws i with _ | r
    · rw [fapGo] at h
      rw [hd] at h
      exact ih _ _ _ h
    · rw [fapGo, hd] at h
      simp only at h
      by_cases hmem :
          startPort + ((r % (endPort - startPort + 1).toNat : Nat) : Int) ∈ used
      · rw [if_pos hmem] at h
        exact ih _ _ _ h
      · rw [if_neg hmem] at h
        by_cases hb : bindable (startPort + ((r % (endPort - startPort + 1).toNat : Nat) : Int))
            = true
        · rw [if_pos hb] at h
          simp only [Except.ok.injEq] at h
          subst h
          have hRpos : 0 < (endPort - startPort + 1).toNat := by omega
          have hmodlt : r % (endPort - startPort + 1).toNat <
              (endPort - startPort + 1).toNat := Nat.mod_lt _ hRpos
          have hcast : ((r % (endPort - startPort + 1).toNat : Nat) : Int) <
              ((endPort - startPort + 1).toNat : Int) := Int.ofNat_lt.mpr hmodlt
          have hR : ((endPort - startPort + 1).toNat : Int) = endPort - startPort + 1 :=
            Int.toNat_of_nonneg (by omega)
          refine ⟨by omega, by omega, hmem⟩
        · rw [if_neg hb] at h
          have := ih _ _ _ h
          exact ⟨this.1, this.2.1, fun hmem2 => this.2.2 (List.mem_cons_of_mem _ hmem2)⟩

theorem fapGo_shape (startPort endPort : Int) (draws : Nat → Option Nat)
    (bindable : Int → Bool) :
    ∀ (fuel i : Nat) (used : List Int),
      (fapGo startPort endPort draws bindable used i fuel).2 ≤ i + fuel ∧
      ((∃ p, (fapGo startPort endPort draws bindable used i fuel).1 = .ok p) ∨
        (fapGo startPort endPort draws bindable used i fuel).1 =
          .error (noPortMsg startPort endPort)) := by
  intro fuel
  induction fuel with
  | zero =>
    intro i used
    simp [fapGo]
  | succ f ih =>
    intro i used
    rcases hd : draws i with _ | r
    · simp only [fapGo, hd]
      have := ih (i + 1) used
      exact ⟨by omega, this.2⟩
    · simp only [fapGo, hd]
      by_cases hmem :
          startPort + ((r % (endPort - startPort + 1).toNat : Nat) : Int) ∈ used
      · rw [if_pos hmem]
        have := ih (i + 1) used
        exact ⟨by omega, this.2⟩
      · rw [if_neg hmem]
        by_cases hb : bindable (startPort + ((r % (endPort - startPort + 1).toNat : Nat) : Int))
            = true
        · rw [if_pos hb]
          exact ⟨by omega, .inl ⟨_, rfl⟩⟩
        · rw [if_neg hb]
          have := ih (i + 1)
            ((startPort + ((r % (endPort - startPort + 1).toNat : Nat) : Int)) :: used)
          exact ⟨by omega, this.2⟩

/-- Claim C2: whenever `findAvailablePort` returns a port, that port lies in
the inclusive requested range and is not in the claimed set that was passed
in. -/
theorem findAvailablePort_inRange (startPort endPort : Int) (usedPorts : List Int)
    (draws : Nat → Option Nat) (bindable : Int → Bool) (port : Int)
    (h : (findAvailablePort startPort endPort usedPorts draws bindable).1 = .ok port) :
    startPort ≤ port ∧ port ≤ endPort ∧ port ∉ usedPorts := by
  unfold findAvailablePort at h
  by_cases hgt : startPort > endPort
  · rw [if_pos hgt] at h
    simp at h
  · rw [if_neg hgt] at h
    exact fapGo_ok (by omega) _ _ _ _ h

/-- Claim C3: on a valid range `findAvailablePort` performs at most
`(endPort - startPort + 1) * 2` attempts and terminates, returning either an
in-range port or exactly the "no available port in range" error. -/
theorem findAvailablePort_bounded (startPort endPort : Int) (usedPorts : List Int)
    (draws : Nat → Option Nat) (bindable : Int → Bool) (hle : startPort ≤ endPort) :
    (findAvailablePort startPort endPort usedPorts draws bindable).2 ≤
      ((endPort - startPort + 1) * 2).toNat ∧
    ((∃ p, (findAvailablePort startPort endPort usedPorts draws bindable).1 = .ok p ∧
        startPort ≤ p ∧ p ≤ endPort) ∨
      (findAvailablePort startPort endPort usedPorts draws bindable).1 =
        .error (noPortMsg startPort endPort)) := by
  have hgt : ¬startPort > endPort := by omega
  have hshape := fapGo_shape startPort endPort draws bindable
    (((endPort - startPort + 1) * 2).toNat) 0 usedPorts
  unfold findAvailablePort
  rw [if_neg hgt]
  refine ⟨by simpa using hshape.1, ?_⟩
  rcases hshape.2 with ⟨p, hp⟩ | herr
  · have hb := fapGo_ok (by omega : startPort ≤ endPort) _ _ _ _ hp
    exact .inl ⟨p, hp, hb.1, hb.2.1⟩
  · exact .inr herr

/-- Claim C10: an inverted range is rejected immediately with the
"invalid port range" error, with zero attempts, independently of the
randomness source and of the socket probe. -/
theorem findAvailablePort_invalidRange (startPort endPort : Int) (usedPorts : List Int)
    (draws : Nat → Option Nat) (bindable : Int → Bool) (h : endPort < startPort) :
    findAvailablePort startPort endPort usedPorts draws bindable =
      (.error "invalid port range", 0) := by
  unfold findAvailablePort
  rw [if_pos h]

/-! ## Claim theorems: registry operations -/

theorem mem_filterKeys_iff {β : Type} (p : β → Bool) (l : List (List Char × β))
    (hnd : (l.map fun e => e.1).Nodup) (k : List Char) :
    (k ∈ (l.filter fun e => p e.2).map fun e => e.1) ↔
      ∃ v, lookupAL l k = some v ∧ p v = true := by
  induction l with
  | nil =>
    constructor
    · intro h
      simp at h
    · intro h
      obtain ⟨v, hv, _⟩ := h
      simp [lookupAL] at hv
  | cons e t ih =>
    obtain ⟨k0, v0⟩ := e
    simp only [List.map_cons, List.nodup_cons] at hnd
    obtain ⟨hk0, hndt⟩ := hnd
    by_cases hk : k0 = k
    · subst hk
      have htail : k0 ∉ (t.filter fun e => p e.2).map fun e => e.1 := by
        intro hmem
        apply hk0
        obtain ⟨e2, he2, hke⟩ := List.mem_map.1 hmem
        exact List.mem_map.2 ⟨e2, (List.mem_filter.1 he2).1, hke⟩
      by_cases hp : p v0 = true
      · constructor
        · intro _
          exact ⟨v0, by simp [lookupAL], hp⟩
        · intro _
          rw [List.filter_cons, if_pos (by simpa using hp)]
          simp only [List.map_cons]
          exact List.mem_cons_self _ _
      · rw [List.filter_cons, if_neg (by simpa using hp)]
        constructor
        · intro hmem
          exact absurd hmem htail
        · intro h
          obtain ⟨v, hv, hpv⟩ := h
          rw [show lookupAL ((k0, v0) :: t) k0 = some v0 by simp [lookupAL]] at hv
          cases hv
          exact absurd hpv hp
    · have hiff := ih hndt
      by_cases hp : p v0 = true
      · simp only [List.filter_cons, hp, ite_true, if_pos, List.map_cons, List.mem_cons]
        rw [show lookupAL ((k0, v0) :: t) k = lookupAL t k by simp [lookupAL, hk]]
        constructor
        · intro h
          rcases h with h | h
          · exact absurd h.symm hk
          · exact hiff.1 h
        · intro h
          exact .inr (hiff.2 h)
      · simp only [List.filter_cons, hp, ite_false, if_neg, Bool.false_eq_true,
          not_false_iff]
        rw [show lookupAL ((k0, v0) :: t) k = lookupAL t k by simp [lookupAL, hk]]
        exact hiff

theorem lookupAL_filter_notMem {β : Type} (l : List (List Char × β))
    (names : List (List Char)) (k : List Char) :
    lookupAL (l.filter fun e => decide (e.1 ∉ names)) k =
      if k ∈ names then none else lookupAL l k := by
  induction l with
  | nil => simp [lookupAL]
  | cons e t ih =>
    obtain ⟨k0, v0⟩ := e
    by_cases hm : k0 ∈ names
    · rw [show List.filter (fun e => decide (e.1 ∉ names)) ((k0, v0) :: t) =
          List.filter (fun e => decide (e.1 ∉ names)) t by
        rw [List.filter_cons]
        simp [hm]]
      by_cases hk : k0 = k
      · subst hk
        rw [ih, if_pos hm, if_pos hm]
      · rw [ih]
        by_cases hkn : k ∈ names
        · rw [if_pos hkn, if_pos hkn]
        · rw [if_neg hkn, if_neg hkn]
          simp [lookupAL, hk]
    · rw [show List.filter (fun e => decide (e.1 ∉ names)) ((k0, v0) :: t) =
          (k0, v0) :: List.filter (fun e => decide (e.1 ∉ names)) t by
        rw [List.filter_cons]
        simp [hm]]
      by_cases hk : k0 = k
      · subst hk
        rw [if_neg hm]
        simp [lookupAL]
      · simp only [lookupAL, hk, ite_false, if_neg]
        exact ih

theorem lookupAL_map {β γ : Type} (g : β → γ) (l : List (List Char × β)) (k : List Char) :
    lookupAL (l.map fun e => (e.1, g e.2)) k = (lookupAL l k).map g := by
  induction l with
  | nil => simp [lookupAL]
  | cons e t ih =>
    obtain ⟨k0, v0⟩ := e
    by_cases hk : k0 = k <;> simp [lookupAL, hk, ih]

/-- Claim C4: `pruneInstances` reports exactly the names whose directory is
missing; after confirmation it removes exactly those entries in the single
persisted write, leaving every entry whose directory still exists unchanged;
the write is reached exactly when something was missing and confirmed. -/
theorem pruneInstances_precise (meta : ManagerMeta) (dirStat : List Char → DirStat)
    (confirm : Bool) (hnd : (meta.map fun e => e.1).Nodup) :
    (∀ name, (name ∈ (pruneInstances meta dirStat confirm).1 ↔
      ∃ r, lookupAL meta name = some r ∧ dirStat r.directory = .missing)) ∧
    (confirm = true → ∀ name r, lookupAL meta name = some r →
      (dirStat r.directory ≠ .missing →
        lookupAL (pruneInstances meta dirStat confirm).2.1 name = some r) ∧
      (dirStat r.directory = .missing →
        lookupAL (pruneInstances meta dirStat confirm).2.1 name = none)) ∧
    ((pruneInstances meta dirStat confirm).2.2 = true ↔
      confirm = true ∧ (pruneInstances meta dirStat confirm).1 ≠ []) := by
  have hiff := fun name => mem_filterKeys_iff
    (fun v => decide (dirStat v.directory = DirStat.missing)) meta hnd name
  by_cases h0 : meta = []
  · subst h0
    simp [pruneInstances, lookupAL]
  · by_cases h1 : (meta.filter fun e =>
        decide (dirStat e.2.directory = DirStat.missing)).map (fun e => e.1) = []
    · have hprune : pruneInstances meta dirStat confirm = ([], meta, false) := by
        simp [pruneInstances, h0, h1]
      rw [hprune]
      refine ⟨?_, ?_, ?_⟩
      · intro name
        simp only [List.not_mem_nil, false_iff]
        intro ⟨r, hr, hmiss⟩
        have : name ∈ (meta.filter fun e =>
            decide (dirStat e.2.directory = DirStat.missing)).map fun e => e.1 :=
          (hiff name).2 ⟨r, hr, by simp [hmiss]⟩
        rw [h1] at this
        simp at this
      · intro _ name r hr
        refine ⟨fun _ => hr, fun hmiss => ?_⟩
        have : name ∈ (meta.filter fun e =>
            decide (dirStat e.2.directory = DirStat.missing)).map fun e => e.1 :=
          (hiff name).2 ⟨r, hr, by simp [hmiss]⟩
        rw [h1] at this
        simp at this
      · simp
    · by_cases h2 : confirm = true
      · have hprune : pruneInstances meta dirStat confirm =
            ((meta.filter fun e => decide (dirStat e.2.directory = DirStat.missing)).map
              (fun e => e.1),
             meta.filter fun e => decide (e.1 ∉ (meta.filter fun e2 =>
               decide (dirStat e2.2.directory = DirStat.missing)).map fun e2 => e2.1),
             true) := by
          simp [pruneInstances, h0, h1, h2]
        rw [hprune]
        refine ⟨?_, ?_, ?_⟩
        · intro name
          simpa using hiff name
        · intro _ name r hr
          constructor
          · intro hkeep
            rw [lookupAL_filter_notMem]
            rw [if_neg, hr]
            intro hmem
            obtain ⟨v, hv, hvmiss⟩ := (hiff name).1 hmem
            rw [hr] at hv
            cases hv
            simp at hvmiss
            exact hkeep hvmiss
          · intro hmiss
            rw [lookupAL_filter_notMem]
            rw [if_pos]
            exact (hiff name).2 ⟨r, hr, by simp [hmiss]⟩
        · exact ⟨fun _ => ⟨h2, h1⟩, fun _ => rfl⟩
      · have h2f : confirm = false := by
          cases confirm
          · rfl
          · exact absurd rfl h2
        subst h2f
        have hprune : pruneInstances meta dirStat false =
            ((meta.filter fun e => decide (dirStat e.2.directory = DirStat.missing)).map
              (fun e => e.1), meta, false) := by
          simp [pruneInstances, h0, h1]
        rw [hprune]
        refine ⟨?_, ?_, ?_⟩
        · intro name
          simpa using hiff name
        · intro hc
          simp at hc
        · simp

/-- Claim C5: `registerInstance` reports a conflict exactly when the name is
already a key or the directory is already registered; a conflict without
override leaves the mapping unchanged and unpersisted; otherwise the entry
for the name is replaced wholesale by the new record, every other key is
untouched, and the mapping is persisted. -/
theorem registerInstance_conflict (meta : ManagerMeta) (name : List Char)
    (rec : InstanceMeta) (overwrite : Bool) :
    ((registerInstance meta name rec overwrite).2.2 = true ↔
      ∃ e ∈ meta, e.1 = name ∨ e.2.directory = rec.directory) ∧
    ((registerInstance meta name rec overwrite).2.2 = true → overwrite = false →
      (registerInstance meta name rec overwrite).1 = meta ∧
      (registerInstance meta name rec overwrite).2.1 = false) ∧
    (((registerInstance meta name rec overwrite).2.2 = false ∨ overwrite = true) →
      lookupAL (registerInstance meta name rec overwrite).1 name = some rec ∧
      (registerInstance meta name rec overwrite).2.1 = true ∧
      ∀ k, k ≠ name → lookupAL (registerInstance meta name rec overwrite).1 k =
        lookupAL meta k) := by
  have hany : (meta.any fun e =>
      decide (e.1 = name) || decide (e.2.directory = rec.directory)) = true ↔
      ∃ e ∈ meta, e.1 = name ∨ e.2.directory = rec.directory := by
    simp [List.any_eq_true]
  by_cases hc : (meta.any fun e =>
      decide (e.1 = name) || decide (e.2.directory = rec.directory)) = true
  · cases overwrite
    · have hreg : registerInstance meta name rec false = (meta, false, true) := by
        simp [registerInstance, hc]
      rw [hreg]
      refine ⟨⟨fun _ => hany.1 hc, fun _ => rfl⟩, fun _ _ => ⟨rfl, rfl⟩, ?_⟩
      intro hfalse
      rcases hfalse with hfalse | hfalse <;> simp at hfalse
    · have hreg : registerInstance meta name rec true = (setAL meta name rec, true, true) := by
        simp [registerInstance, hc]
      rw [hreg]
      refine ⟨by simpa using hany.1 hc, by simp, ?_⟩
      intro _
      exact ⟨lookupAL_setAL_self _ _ _, rfl, fun k hk => lookupAL_setAL_ne _ _ hk⟩
  · have hcf : (meta.any fun e =>
        decide (e.1 = name) || decide (e.2.directory = rec.directory)) = false := by
      cases hval : meta.any fun e =>
          decide (e.1 = name) || decide (e.2.directory = rec.directory)
      · rfl
      · exact absurd hval hc
    have hreg : registerInstance meta name rec overwrite =
        (setAL meta name rec, true, false) := by
      simp [registerInstance, hcf]
    rw [hreg]
    refine ⟨?_, by simp, ?_⟩
    · simp only [Bool.false_eq_true, false_iff]
      intro hex
      exact hc (hany.2 hex)
    · intro _
      exact ⟨lookupAL_setAL_self _ _ _, rfl, fun k hk => lookupAL_setAL_ne _ _ hk⟩

/-- Claim C9: the status scan leaves every field of every record except
`status` unchanged (same keys, same directory, timestamps, versions and
port), sets `status` to the freshly computed value, and reaches the persist
call exactly when some status changed. -/
theorem updateStatuses_frame (meta : ManagerMeta) (probe : List Char → StatusProbe) :
    (∀ k r, lookupAL meta k = some r →
      ∃ r2, lookupAL (updateStatuses meta probe).1 k = some r2 ∧
        r2.directory = r.directory ∧ r2.creationDate = r.creationDate ∧
        r2.wordpressVersion = r.wordpressVersion ∧ r2.dbVersion = r.dbVersion ∧
        r2.wordpressPort = r.wordpressPort ∧
        r2.status = computeStatus (probe r.directory)) ∧
    (∀ k, lookupAL meta k = none → lookupAL (updateStatuses meta probe).1 k = none) ∧
    ((updateStatuses meta probe).2 = true ↔
      ∃ e ∈ meta, e.2.status ≠ computeStatus (probe e.2.directory)) := by
  by_cases h0 : meta = []
  · subst h0
    simp [updateStatuses, lookupAL]
  · have hupd : updateStatuses meta probe =
        ((meta.map fun e => (e.1, withStatus e.2 (computeStatus (probe e.2.directory)))),
         meta.any fun e => !(e.2.status = computeStatus (probe e.2.directory) : Bool)) := by
      simp [updateStatuses, h0]
    rw [hupd]
    refine ⟨?_, ?_, ?_⟩
    · intro k r hr
      refine ⟨withStatus r (computeStatus (probe r.directory)), ?_, by simp [withStatus]⟩
      rw [lookupAL_map (fun v => withStatus v (computeStatus (probe v.directory))), hr]
      rfl
    · intro k hk
      rw [lookupAL_map (fun v => withStatus v (computeStatus (probe v.directory))), hk]
      rfl
    · simp [List.any_eq_true]

/-! ## Witnesses: each claim theorem applied at a concrete input -/

theorem writeStore_atomicRename_witness :
    fsRead [] (tempPathOf "m".toList "7".toList) = none ∧
    (∀ c ∈ "7".toList, c ≠ '/') ∧
    fsRead (writeManagerMeta [] "m".toList "7".toList noWriteErrs sampleRegistry).2
        "m".toList =
      (if fsExists [] (lockPathOf "m".toList) = false ∧ noWriteErrs = noWriteErrs
        then some (encodeManagerMeta sampleRegistry) else fsRead [] "m".toList) :=
  ⟨by decide, by decide,
    (writeStore_atomicRename [] "m".toList "7".toList noWriteErrs sampleRegistry
      defaultGlobalConfig (by decide) (by decide)).2.1⟩

theorem findAvailablePort_inRange_witness :
    (findAvailablePort 8000 8005 [8001] (fun _ => some 0) (fun _ => true)).1 = .ok 8000 ∧
    ((8000 : Int) ≤ 8000 ∧ (8000 : Int) ≤ 8005 ∧ (8000 : Int) ∉ ([8001] : List Int)) :=
  ⟨by rfl, findAvailablePort_inRange 8000 8005 [8001] (fun _ => some 0) (fun _ => true)
    8000 (by rfl)⟩

theorem findAvailablePort_bounded_witness :
    (8000 : Int) ≤ 8005 ∧
    ((findAvailablePort 8000 8005 [] (fun _ => none) (fun _ => false)).2 ≤
        (((8005 : Int) - 8000 + 1) * 2).toNat ∧
      ((∃ p, (findAvailablePort 8000 8005 [] (fun _ => none) (fun _ => false)).1 = .ok p ∧
          (8000 : Int) ≤ p ∧ p ≤ 8005) ∨
        (findAvailablePort 8000 8005 [] (fun _ => none) (fun _ => false)).1 =
          .error (noPortMsg 8000 8005))) :=
  ⟨by decide, findAvailablePort_bounded 8000 8005 [] (fun _ => none) (fun _ => false)
    (by decide)⟩

theorem pruneInstances_precise_witness :
    (sampleRegistry.map fun e => e.1).Nodup ∧
    ((pruneInstances sampleRegistry sampleDirStat true).2.2 = true ↔
      true = true ∧ (pruneInstances sampleRegistry sampleDirStat true).1 ≠ []) :=
  ⟨by decide, (pruneInstances_precise sampleRegistry sampleDirStat true (by decide)).2.2⟩

theorem registerInstance_conflict_witness :
    ((registerInstance sampleRegistry "A".toList
        (⟨"/srv/new".toList, [], [], [], 9000, []⟩ : InstanceMeta) false).2.2 = true ↔
      ∃ e ∈ sampleRegistry, e.1 = "A".toList ∨
        e.2.directory =
          (⟨"/srv/new".toList, [], [], [], 9000, []⟩ : InstanceMeta).directory) :=
  (registerInstance_conflict sampleRegistry "A".toList
    ⟨"/srv/new".toList, [], [], [], 9000, []⟩ false).1

theorem readStore_defaults_witness :
    readManagerMeta [("p".toList, "xx".toList)] "p".toList false = (.ok [], true) ∧
    readGlobalManagerConfig [("p".toList, "xx".toList)] "p".toList false =
      (.ok defaultGlobalConfig, true) :=
  ⟨((readStore_defaults [("p".toList, "xx".toList)] "p".toList false).2.1 "xx".toList
      (by decide) rfl (by decide)).1 (by decide) (by decide),
   ((readStore_defaults [("p".toList, "xx".toList)] "p".toList false).2.1 "xx".toList
      (by decide) rfl (by decide)).2 (by decide)⟩

theorem writeManagerMeta_readManagerMeta_roundTrip_witness :
    fsExists [] (lockPathOf "m".toList) = false ∧
    readManagerMeta (writeManagerMeta [] "m".toList "7".toList noWriteErrs sampleRegistry).2
      "m".toList false = (.ok sampleRegistry, false) :=
  ⟨by decide, writeManagerMeta_readManagerMeta_roundTrip [] "m".toList "7".toList
    sampleRegistry (by decide)⟩

theorem fileLock_mutualExclusion_witness :
    fsExists [] "L".toList = false ∧
    (fileLockLock (fileLockLock [] "L".toList).2 "L".toList).1 =
      .error "lock exists or creation failed" :=
  ⟨by decide, (fileLock_mutualExclusion [] "L".toList (by decide)).2.1⟩

theorem updateStatuses_frame_witness :
    (updateStatuses sampleRegistry sampleProbe).2 = true ↔
      ∃ e ∈ sampleRegistry, e.2.status ≠ computeStatus (sampleProbe e.2.directory) :=
  (updateStatuses_frame sampleRegistry sampleProbe).2.2

theorem findAvailablePort_invalidRange_witness :
    (8000 : Int) < 9000 ∧
    findAvailablePort 9000 8000 [] (fun _ => some 0) (fun _ => true) =
      (.error "invalid port range", 0) :=
  ⟨by decide, findAvailablePort_invalidRange 9000 8000 [] (fun _ => some 0) (fun _ => true)
    (by decide)⟩

end Wpod
